import Mathlib

/-!
Shallow embedding of the LivePoll write-behind vote tally engine.

The Counter Cache (Redis) is modelled as an association list from key
strings to integer counter values; every Redis command used by the code
(`INCR`, `GET`, `DECRBY`, `DECR`, `DEL`, `KEYS pattern`, cursor `SCAN`)
is embedded as a pure operation on that list.  The Durable Store
(Prisma/Postgres) is a list of poll records, each carrying its option
rows; the Prisma calls used by the code (`findUnique`, `findMany` with
`orderBy createdAt desc`, `option.update` with an atomic `increment`,
`aggregate _sum`, `deleteMany`/`delete`) are embedded as pure operations
on that list.  Service methods from
`apps/http-backend/src/services/voteService.ts` and the HTTP handlers
from `apps/http-backend/src/index.ts` are embedded as explicit
state-passing functions over the combined state `St`; the awaited calls
of the source are sequenced in program order.
-/

/-- A Durable Store option row (the Prisma `Option` model): identifier,
display text, persisted vote count, parent poll identifier. -/
structure OptionRec where
  id : String
  text : String
  votes : Int
  pollId : String
deriving DecidableEq, Repr

/-- A Durable Store poll record (the Prisma `Poll` model) together with its
option rows (`include: { options: true }`).  Creation time is modelled as an
integer timestamp. -/
structure PollRec where
  id : String
  question : String
  createdAt : Int
  options : List OptionRec
deriving DecidableEq, Repr

/-- The Counter Cache: a Redis instance holding integer counters, modelled
as an association list from key to value in key-creation order. -/
abbrev Cache := List (String × Int)

/-- The Durable Store: the set of poll records, in insertion order. -/
abbrev DB := List PollRec

/-- The combined mutable state the backend operates on. -/
structure St where
  db : DB
  cache : Cache
deriving DecidableEq, Repr

/-- The `VOTE_KEY_PREFIX` constant of `voteService.ts`. -/
def voteKeyPref : String := "poll:votes:"

/-- The `VOTE_KEY_PREFIX` constant of `index.ts` — a different string from
the one in `voteService.ts`. -/
def indexVoteKeyPref : String := "votes:"

/-- The cache key the Vote Service uses for an option's pending counter. -/
def voteKey (optionId : String) : String := voteKeyPref ++ optionId

/-- The cache key the `POST /votes` handler in `index.ts` builds for an
option (with its own, different, key constant). -/
def indexVoteKey (optionId : String) : String := indexVoteKeyPref ++ optionId

/-- Redis `GET key` (counter read): first binding of the key, if any. -/
def cacheGet : Cache → String → Option Int
  | [], _ => none
  | (k', v) :: rest, k => if k' = k then some v else cacheGet rest k

/-- Redis `INCR key`: add one to the counter, creating it at 1 if absent. -/
def cacheIncr : Cache → String → Cache
  | [], k => [(k, 1)]
  | (k', v) :: rest, k =>
    if k' = k then (k', v + 1) :: rest else (k', v) :: cacheIncr rest k

/-- Redis `DECRBY key amount`: subtract `amount`, creating the counter at
`-amount` if absent. -/
def cacheDecrBy : Cache → String → Int → Cache
  | [], k, a => [(k, -a)]
  | (k', v) :: rest, k, a =>
    if k' = k then (k', v - a) :: rest else (k', v) :: cacheDecrBy rest k a

/-- Redis `DECR key`. -/
def cacheDecr (c : Cache) (k : String) : Cache := cacheDecrBy c k 1

/-- Redis `DEL k1 k2 ...`: remove all listed keys. -/
def cacheDel (c : Cache) (ks : List String) : Cache :=
  c.filter (fun e => !(ks.contains e.1))

/-- Whether a key matches the Redis glob pattern `poll:votes:*` used by the
Vote Service, i.e. starts with `VOTE_KEY_PREFIX`. -/
def matchesVoteKeys (k : String) : Bool := voteKeyPref.data.isPrefixOf k.data

/-- Redis `KEYS poll:votes:*`: one blocking listing of all matching keys. -/
def cacheKeysMatching (c : Cache) : List String :=
  (c.map Prod.fst).filter matchesVoteKeys

/-- The `key.replace(VOTE_KEY_PREFIX, "")` step of the reconciler: on every
key the enumeration can yield (all of which start with the vote-key
pattern) this removes that leading occurrence. -/
def stripVoteKey (k : String) : String :=
  if matchesVoteKeys k then String.mk (k.data.drop voteKeyPref.data.length) else k

/-- The `SCAN_BATCH_SIZE` constant of the scan-based service variant. -/
def scanBatchSize : Nat := 100

/-- One full cursor iteration of Redis `SCAN cursor MATCH poll:votes:*
COUNT 100` over a fixed keyspace: each step visits the next batch of at
most `scanBatchSize` keys and keeps the matching ones, until the cursor
returns to zero (the keyspace is exhausted). -/
def scanFrom : List String → List String
  | [] => []
  | k :: ks =>
    ((k :: ks).take scanBatchSize).filter matchesVoteKeys ++
      scanFrom ((k :: ks).drop scanBatchSize)
termination_by l => l.length
decreasing_by
  simp [scanBatchSize, List.length_drop]
  omega

/-- Poll ordering requested from the Durable Store by the read path:
`orderBy: { createdAt: "desc" }`. -/
def pollDescRel : PollRec → PollRec → Prop := fun p q => q.createdAt ≤ p.createdAt

instance : DecidableRel pollDescRel :=
  fun _ _ => inferInstanceAs (Decidable (_ ≤ _))

instance : IsTotal PollRec pollDescRel :=
  ⟨fun a b => le_total b.createdAt a.createdAt⟩

instance : IsTrans PollRec pollDescRel :=
  ⟨fun _ _ _ h h' => le_trans h' h⟩

/-- All option rows of the Durable Store (the Prisma `Option` table). -/
def dbOptions (db : DB) : List OptionRec := (db.map PollRec.options).flatten

/-- Prisma `poll.findUnique({ where: { id } , include: { options } })`. -/
def findUniquePoll (db : DB) (pollId : String) : Option PollRec :=
  db.find? (fun p => p.id == pollId)

/-- Prisma `option.findUnique({ where: { id } })`. -/
def findUniqueOption (db : DB) (optionId : String) : Option OptionRec :=
  (dbOptions db).find? (fun o => o.id == optionId)

/-- Prisma `poll.findMany({ include: { options }, orderBy: { createdAt:
"desc" } })`: the poll records sorted most-recent-first. -/
def findManyPollsDesc (db : DB) : List PollRec :=
  List.insertionSort pollDescRel db

/-- Helper for the atomic option update: increment the vote count of the
record with the given identifier (the `id` column is unique, so the first
match is the record), failing if no row matches. -/
def updateFirstOption : List OptionRec → String → Int → Option (List OptionRec)
  | [], _, _ => none
  | o :: os, optionId, amount =>
    if o.id = optionId then some ({ o with votes := o.votes + amount } :: os)
    else (updateFirstOption os optionId amount).map (o :: ·)

/-- Prisma `option.update({ where: { id }, data: { votes: { increment :
amount } } })`: an atomic add on the matching row; throws (modelled as
`none`) when no row with that identifier exists. -/
def optionUpdateIncrement : DB → String → Int → Option DB
  | [], _, _ => none
  | p :: ps, optionId, amount =>
    match updateFirstOption p.options optionId amount with
    | some opts => some ({ p with options := opts } :: ps)
    | none => (optionUpdateIncrement ps optionId amount).map (p :: ·)

/-- Prisma `option.aggregate({ _sum: { votes } })` (with the handler's
`|| 0` for the empty table). -/
def aggregateSumVotes (db : DB) : Int :=
  ((dbOptions db).map OptionRec.votes).sum

/-- Total durable votes recorded for a given option identifier. -/
def optionVotesSum (db : DB) (optionId : String) : Int :=
  (((dbOptions db).filter (fun o => o.id == optionId)).map OptionRec.votes).sum

/-- Whether some option row with the given identifier exists. -/
def optionExists (db : DB) (optionId : String) : Bool :=
  (dbOptions db).any (fun o => o.id == optionId)

/-- The Durable Store part of the `DELETE /polls/:id` handler:
`option.deleteMany({ where: { pollId } })` then `poll.delete({ where: {
id } })`. -/
def dbDeletePoll (db : DB) (pollId : String) : DB :=
  (db.map (fun p =>
    { p with options := p.options.filter (fun o => !(o.pollId == pollId)) })).filter
    (fun p => !(p.id == pollId))

namespace VoteService

/-- `VoteService.recordVote`: speculative `INCR` on the option's pending
counter. -/
def recordVote (optionId : String) (s : St) : St :=
  { s with cache := cacheIncr s.cache (voteKey optionId) }

/-- `VoteService.getPendingVotes`: `GET` on the pending counter; a missing
key (null reply) reads as 0, any stored counter string parses to its
value. -/
def getPendingVotes (optionId : String) (s : St) : Int × St :=
  match cacheGet s.cache (voteKey optionId) with
  | some v => (v, s)
  | none => (0, s)

/-- The `for (const option of poll.options)` loop of the read path: add
each option's pending counter to its durable vote count, in order. -/
def mergeOptionsOp : List OptionRec → St → List OptionRec × St
  | [], s => ([], s)
  | o :: os, s =>
    let r1 := getPendingVotes o.id s
    let r2 := mergeOptionsOp os r1.2
    ({ o with votes := o.votes + r1.1 } :: r2.1, r2.2)

/-- `VoteService.getPollWithCachedVotes`: look the poll up in the Durable
Store and overlay each option's pending counter. -/
def getPollWithCachedVotes (pollId : String) (s : St) : Option PollRec × St :=
  match findUniquePoll s.db pollId with
  | none => (none, s)
  | some poll =>
    let r := mergeOptionsOp poll.options s
    (some { poll with options := r.1 }, r.2)

/-- The outer loop of `VoteService.getAllPollsWithCachedVotes`. -/
def mergePollsOp : List PollRec → St → List PollRec × St
  | [], s => ([], s)
  | p :: ps, s =>
    let r1 := mergeOptionsOp p.options s
    let r2 := mergePollsOp ps r1.2
    ({ p with options := r1.1 } :: r2.1, r2.2)

/-- `VoteService.getAllPollsWithCachedVotes`: list polls most-recent-first
and overlay the pending counters. -/
def getAllPollsWithCachedVotes (s : St) : List PollRec × St :=
  mergePollsOp (findManyPollsDesc s.db) s

/-- The per-key body of `VoteService.syncVotesToDatabase`: read the pending
value; skip zero; atomically add it to the durable row; on success
`DECRBY` the counter by the exact amount synced; on a thrown update
(missing row) do nothing. -/
def syncKey (s : St) (key : String) : St :=
  let optionId := stripVoteKey key
  let votesToSync := (cacheGet s.cache key).getD 0
  if votesToSync = 0 then s
  else
    match optionUpdateIncrement s.db optionId votesToSync with
    | some db2 => { db := db2, cache := cacheDecrBy s.cache key votesToSync }
    | none => s

/-- `VoteService.syncVotesToDatabase` (the `voteService.ts` variant):
enumerate the pending-counter keys with one blocking `KEYS` listing,
return early when none, and run the per-key protocol for each key.  The
`Promise.all` of the source runs the keys' independent protocols over
distinct keys; the embedding sequences them in list order. -/
def syncVotesToDatabase (s : St) : St :=
  let keys := cacheKeysMatching s.cache
  if keys.isEmpty then s else keys.foldl syncKey s

/-- `VoteService.scanAllKeys` of the scan-based service variant: collect
the matching keys with a cursor-based `SCAN` loop. -/
def scanAllKeys (c : Cache) : List String := scanFrom (c.map Prod.fst)

/-- `VoteService.syncVotesToDatabase` of the scan-based service variant:
identical per-key protocol, keys discovered via `scanAllKeys`. -/
def syncVotesToDatabaseScan (s : St) : St :=
  let keys := scanAllKeys s.cache
  if keys.isEmpty then s else keys.foldl syncKey s

/-- `VoteService.clearPollVotes`: delete the listed options' pending
counters outright (early return on an empty list). -/
def clearPollVotes (optionIds : List String) (s : St) : St :=
  if optionIds.isEmpty then s
  else { s with cache := cacheDel s.cache (optionIds.map voteKey) }

/-- `VoteService.getTotalVotes`: the durable aggregate sum plus, for each
enumerated pending-counter key, its value (a null reply contributes
nothing; any stored counter string is truthy and parses to its value). -/
def getTotalVotes (s : St) : Int × St :=
  let base := aggregateSumVotes s.db
  let keys := cacheKeysMatching s.cache
  (keys.foldl (fun acc k =>
    match cacheGet s.cache k with
    | some v => acc + v
    | none => acc) base, s)

end VoteService

/-- Outcome of the `POST /votes` handler, as far as the tally state is
concerned. -/
inductive VoteResult where
  | badRequest
  | notFound
  | ok (votes : Int)
deriving DecidableEq, Repr

/-- The `POST /votes` handler of `index.ts`: validate the body, call
`recordVote` (speculative increment), look the option up in the Durable
Store; if absent, `DECR` the key built with the handler's own
`VOTE_KEY_PREFIX` and answer 404; otherwise answer with durable votes
plus pending. -/
def postVotesHandler (optionId : String) (s : St) : VoteResult × St :=
  if optionId = "" then (VoteResult.badRequest, s)
  else
    let s1 := VoteService.recordVote optionId s
    match findUniqueOption s1.db optionId with
    | none =>
      (VoteResult.notFound, { s1 with cache := cacheDecr s1.cache (indexVoteKey optionId) })
    | some opt =>
      let r := VoteService.getPendingVotes optionId s1
      (VoteResult.ok (opt.votes + r.1), r.2)

/-- The `DELETE /polls/:id` handler of `index.ts`: find the poll (404 when
absent), clear its options' pending counters, then delete the option rows
and the poll from the Durable Store. -/
def deletePollHandler (pollId : String) (s : St) : Bool × St :=
  match findUniquePoll s.db pollId with
  | none => (false, s)
  | some poll =>
    let s1 := VoteService.clearPollVotes (poll.options.map OptionRec.id) s
    (true, { s1 with db := dbDeletePoll s1.db pollId })

/-- The `GET /stats/polls` handler of `index.ts`: per-poll totals reduced
over the merged options, and the grand total reduced over those. -/
def statsPollsHandler (s : St) : (List (String × Int) × Int) × St :=
  let r := VoteService.getAllPollsWithCachedVotes s
  let breakdown := r.1.map (fun p => (p.id, p.options.foldl (fun acc o => acc + o.votes) 0))
  let grand := breakdown.foldl (fun acc pr => acc + pr.2) 0
  ((breakdown, grand), r.2)

/-- The spec's Tally Overlay pure function: `visibleTotal(durable, pending)
= durable + pending`. -/
def visibleTotal (durable pending : Int) : Int := durable + pending

/-- The spec's "sum over all keys of pending counter values" (absent read
as zero), over the enumerated pending-counter keys. -/
def specPendingSum (c : Cache) : Int :=
  ((cacheKeysMatching c).map (fun k => (cacheGet c k).getD 0)).sum

/-- A burst of `d` concurrent `recordVote` calls for one option, landing
between the reconciler's steps. -/
def votesBurst (optionId : String) : Nat → St → St
  | 0, s => s
  | n + 1, s => votesBurst optionId n (VoteService.recordVote optionId s)

/-- The reconciler's per-key protocol (the body of `syncVotesToDatabase`)
for one key, with a burst of `d` concurrent `recordVote` increments for
the same option landing between the Durable Store increment and the cache
decrement — the race window the design note calls out. -/
def syncKeyConcurrent (s : St) (key : String) (d : Nat) : St :=
  let optionId := stripVoteKey key
  let votesToSync := (cacheGet s.cache key).getD 0
  if votesToSync = 0 then votesBurst optionId d s
  else
    match optionUpdateIncrement s.db optionId votesToSync with
    | some db2 =>
      let s3 := votesBurst optionId d { s with db := db2 }
      { s3 with cache := cacheDecrBy s3.cache key votesToSync }
    | none => votesBurst optionId d s

/-- Example poll of the spec's two-option scenario: durable counts 3, 7. -/
def exPoll : PollRec := ⟨"p1", "q", 0, [⟨"o1", "A", 3, "p1"⟩, ⟨"o2", "B", 7, "p1"⟩]⟩

/-- Example Durable Store holding only `exPoll`. -/
def exDb : DB := [exPoll]

/-- Example Counter Cache of the scenario: pending counters 2 and 0. -/
def exCache : Cache := [(voteKey "o1", 2), (voteKey "o2", 0)]

/-- The scenario state: durable {3, 7}, pending {2, 0}. -/
def exSt : St := ⟨exDb, exCache⟩

/-- Example state with one option `a` (durable 5, pending 2). -/
def exSt2 : St := ⟨[⟨"p", "q", 0, [⟨"a", "A", 5, "p"⟩]⟩], [(voteKey "a", 2)]⟩

/-- Example state with a pending counter for a vanished option `a` next to a
live option `b`. -/
def exSt4 : St := ⟨[⟨"p", "q", 0, [⟨"b", "B", 1, "p"⟩]⟩], [(voteKey "a", 1), (voteKey "b", 2)]⟩

/-- Example state whose only pending counter reads zero. -/
def exSt5 : St := ⟨[⟨"p", "q", 0, [⟨"a", "A", 5, "p"⟩]⟩], [(voteKey "a", 0), ("other", 3)]⟩

/-! ### Counter Cache lemmas -/

theorem cacheGet_incr_self (c : Cache) (k : String) :
    cacheGet (cacheIncr c k) k = some ((cacheGet c k).getD 0 + 1) := by
  induction c with
  | nil => simp [cacheGet, cacheIncr]
  | cons e rest ih =>
    obtain ⟨k', v⟩ := e
    by_cases h : k' = k <;> simp [cacheGet, cacheIncr, h, ih]

theorem cacheGet_incr_ne (c : Cache) (k k' : String) (h : k' ≠ k) :
    cacheGet (cacheIncr c k) k' = cacheGet c k' := by
  induction c with
  | nil => simp [cacheGet, cacheIncr, Ne.symm h]
  | cons e rest ih =>
    obtain ⟨k'', v⟩ := e
    by_cases h3 : k'' = k'
    · subst h3
      simp [cacheGet, cacheIncr, h]
    · by_cases h2 : k'' = k
      · subst h2
        simp [cacheGet, cacheIncr, h3]
      · simp [cacheGet, cacheIncr, h2, h3, ih]

theorem cacheGet_decrBy_self (c : Cache) (k : String) (a : Int) :
    cacheGet (cacheDecrBy c k a) k = some ((cacheGet c k).getD 0 - a) := by
  induction c with
  | nil => simp [cacheGet, cacheDecrBy]
  | cons e rest ih =>
    obtain ⟨k', v⟩ := e
    by_cases h : k' = k <;> simp [cacheGet, cacheDecrBy, h, ih]

theorem cacheGet_decrBy_ne (c : Cache) (k k' : String) (a : Int) (h : k' ≠ k) :
    cacheGet (cacheDecrBy c k a) k' = cacheGet c k' := by
  induction c with
  | nil => simp [cacheGet, cacheDecrBy, Ne.symm h]
  | cons e rest ih =>
    obtain ⟨k'', v⟩ := e
    by_cases h3 : k'' = k'
    · subst h3
      simp [cacheGet, cacheDecrBy, h]
    · by_cases h2 : k'' = k
      · subst h2
        simp [cacheGet, cacheDecrBy, h3]
      · simp [cacheGet, cacheDecrBy, h2, h3, ih]

theorem cacheGet_del_mem (c : Cache) (ks : List String) (k : String) (h : k ∈ ks) :
    cacheGet (cacheDel c ks) k = none := by
  induction c with
  | nil => simp [cacheGet, cacheDel]
  | cons e rest ih =>
    obtain ⟨k', v⟩ := e
    by_cases h2 : k' ∈ ks
    · simpa [cacheDel, h2] using ih
    · have hne : k' ≠ k := by
        intro hk
        subst hk
        exact h2 h
      simpa [cacheDel, cacheGet, h2, hne] using ih

theorem mem_keysMatching_del (c : Cache) (ks : List String) (k : String) (h : k ∈ ks) :
    k ∉ cacheKeysMatching (cacheDel c ks) := by
  intro hmem
  simp only [cacheKeysMatching, List.mem_filter, List.mem_map] at hmem
  obtain ⟨⟨e, he, hek⟩, _⟩ := hmem
  simp only [cacheDel, List.mem_filter] at he
  rw [hek] at he
  exact absurd (List.elem_eq_true_of_mem h) (by simpa using he.2)

theorem cacheGet_isSome_of_mem (c : Cache) (k : String) (h : k ∈ c.map Prod.fst) :
    ∃ v, cacheGet c k = some v := by
  induction c with
  | nil => simp at h
  | cons e rest ih =>
    obtain ⟨k', v⟩ := e
    by_cases h2 : k' = k
    · exact ⟨v, by simp [cacheGet, h2]⟩
    · simp only [List.map_cons, List.mem_cons] at h
      rcases h with h | h
    
      · exact absurd h.symm h2
      · simpa [cacheGet, h2] using ih h

theorem mem_keysMatching_matches (c : Cache) (k : String) (h : k ∈ cacheKeysMatching c) :
    matchesVoteKeys k = true := by
  simp only [cacheKeysMatching, List.mem_filter] at h
  exact h.2

theorem mem_keysMatching_mem_keys (c : Cache) (k : String) (h : k ∈ cacheKeysMatching c) :
    k ∈ c.map Prod.fst := by
  simp only [cacheKeysMatching, List.mem_filter] at h
  exact h.1

theorem keysMatching_nodup (c : Cache) (h : (c.map Prod.fst).Nodup) :
    (cacheKeysMatching c).Nodup :=
  h.filter _

/-! ### Key-string lemmas -/

theorem matchesVoteKeys_voteKey (optionId : String) :
    matchesVoteKeys (voteKey optionId) = true := by
  simp only [matchesVoteKeys, voteKey, String.data_append]
  exact List.isPrefixOf_iff_prefix.mpr (List.prefix_append _ _)

theorem stripVoteKey_voteKey (optionId : String) :
    stripVoteKey (voteKey optionId) = optionId := by
  unfold stripVoteKey
  rw [if_pos (matchesVoteKeys_voteKey optionId)]
  apply String.ext
  show (voteKey optionId).data.drop voteKeyPref.data.length = optionId.data
  rw [voteKey, String.data_append, List.drop_left]

theorem stripVoteKey_inj (k1 k2 : String) (h1 : matchesVoteKeys k1 = true)
    (h2 : matchesVoteKeys k2 = true) (h : stripVoteKey k1 = stripVoteKey k2) :
    k1 = k2 := by
  simp only [matchesVoteKeys] at h1 h2
  obtain ⟨t1, ht1⟩ := List.isPrefixOf_iff_prefix.mp h1
  obtain ⟨t2, ht2⟩ := List.isPrefixOf_iff_prefix.mp h2
  simp only [stripVoteKey, matchesVoteKeys, h1, h2, if_true] at h
  have hd : k1.data.drop voteKeyPref.data.length = k2.data.drop voteKeyPref.data.length :=
    congrArg String.data h
  rw [← ht1, ← ht2, List.drop_left, List.drop_left] at hd
  apply String.ext
  rw [← ht1, ← ht2, hd]

/-! ### Durable Store lemmas -/

theorem dbOptions_cons (p : PollRec) (ps : DB) :
    dbOptions (p :: ps) = p.options ++ dbOptions ps := by
  simp [dbOptions]

theorem updateFirstOption_isSome (os : List OptionRec) (optionId : String) (a : Int) :
    (updateFirstOption os optionId a).isSome = os.any (fun o => o.id == optionId) := by
  induction os with
  | nil => simp [updateFirstOption]
  | cons o rest ih =>
    by_cases h : o.id = optionId <;> simp [updateFirstOption, h, ih]

theorem updateFirstOption_votesSum_self (os os' : List OptionRec) (optionId : String)
    (a : Int) (h : updateFirstOption os optionId a = some os') :
    ((os'.filter (fun o => o.id == optionId)).map OptionRec.votes).sum =
      ((os.filter (fun o => o.id == optionId)).map OptionRec.votes).sum + a := by
  induction os generalizing os' with
  | nil => simp [updateFirstOption] at h
  | cons o rest ih =>
    by_cases hid : o.id = optionId
    · simp only [updateFirstOption, if_pos hid] at h
      obtain rfl := Option.some.inj h
      simp [hid]
      ring
    · simp only [updateFirstOption, if_neg hid] at h
      obtain ⟨t, ht, rfl⟩ := Option.map_eq_some'.mp h
      simp [hid, ih t ht]

theorem updateFirstOption_votesSum_other (os os' : List OptionRec) (optionId oid' : String)
    (a : Int) (hne : oid' ≠ optionId) (h : updateFirstOption os optionId a = some os') :
    ((os'.filter (fun o => o.id == oid')).map OptionRec.votes).sum =
      ((os.filter (fun o => o.id == oid')).map OptionRec.votes).sum := by
  induction os generalizing os' with
  | nil => simp [updateFirstOption] at h
  | cons o rest ih =>
    by_cases hid : o.id = optionId
    · simp only [updateFirstOption, if_pos hid] at h
      obtain rfl := Option.some.inj h
      have : ¬(o.id = oid') := by
        rw [hid]
        exact Ne.symm hne
      simp [this]
    · simp only [updateFirstOption, if_neg hid] at h
      obtain ⟨t, ht, rfl⟩ := Option.map_eq_some'.mp h
      by_cases h3 : o.id = oid' <;> simp [h3, ih t ht]

theorem updateFirstOption_ids (os os' : List OptionRec) (optionId : String) (a : Int)
    (h : updateFirstOption os optionId a = some os') :
    os'.map OptionRec.id = os.map OptionRec.id := by
  induction os generalizing os' with
  | nil => simp [updateFirstOption] at h
  | cons o rest ih =>
    by_cases hid : o.id = optionId
    · simp only [updateFirstOption, if_pos hid] at h
      obtain rfl := Option.some.inj h
      simp
    · simp only [updateFirstOption, if_neg hid] at h
      obtain ⟨t, ht, rfl⟩ := Option.map_eq_some'.mp h
      simp [ih t ht]

theorem optionVotesSum_cons (p : PollRec) (ps : DB) (oid : String) :
    optionVotesSum (p :: ps) oid =
      ((p.options.filter (fun o => o.id == oid)).map OptionRec.votes).sum +
        optionVotesSum ps oid := by
  simp [optionVotesSum, dbOptions_cons, List.filter_append]

theorem optionExists_cons (p : PollRec) (ps : DB) (oid : String) :
    optionExists (p :: ps) oid =
      (p.options.any (fun o => o.id == oid) || optionExists ps oid) := by
  simp [optionExists, dbOptions_cons]

theorem optionUpdateIncrement_isSome (db : DB) (optionId : String) (a : Int) :
    (optionUpdateIncrement db optionId a).isSome = optionExists db optionId := by
  induction db with
  | nil => simp [optionUpdateIncrement, optionExists, dbOptions]
  | cons p ps ih =>
    have h1 := updateFirstOption_isSome p.options optionId a
    rw [optionExists_cons]
    rcases hu : updateFirstOption p.options optionId a with _ | t
    · rw [hu] at h1
      simp only [optionUpdateIncrement, hu]
      rcases hr : optionUpdateIncrement ps optionId a with _ | t2 <;>
        rw [hr] at ih <;> simp [← h1, ← ih]
    · rw [hu] at h1
      simp only [optionUpdateIncrement, hu]
      simp [← h1]

theorem optionUpdateIncrement_votesSum_self (db db' : DB) (optionId : String) (a : Int)
    (h : optionUpdateIncrement db optionId a = some db') :
    optionVotesSum db' optionId = optionVotesSum db optionId + a := by
  induction db generalizing db' with
  | nil => simp [optionUpdateIncrement] at h
  | cons p ps ih =>
    rcases hu : updateFirstOption p.options optionId a with _ | t
    · simp only [optionUpdateIncrement, hu] at h
      obtain ⟨t2, ht2, rfl⟩ := Option.map_eq_some'.mp h
      rw [optionVotesSum_cons, optionVotesSum_cons, ih t2 ht2]
      ring
    · simp only [optionUpdateIncrement, hu] at h
      obtain rfl := Option.some.inj h
      rw [optionVotesSum_cons, optionVotesSum_cons]
      have hx := updateFirstOption_votesSum_self p.options t optionId a hu
      simp only at hx ⊢
      rw [hx]
      ring

theorem optionUpdateIncrement_votesSum_other (db db' : DB) (optionId oid' : String)
    (a : Int) (hne : oid' ≠ optionId) (h : optionUpdateIncrement db optionId a = some db') :
    optionVotesSum db' oid' = optionVotesSum db oid' := by
  induction db generalizing db' with
  | nil => simp [optionUpdateIncrement] at h
  | cons p ps ih =>
    rcases hu : updateFirstOption p.options optionId a with _ | t
    · simp only [optionUpdateIncrement, hu] at h
      obtain ⟨t2, ht2, rfl⟩ := Option.map_eq_some'.mp h
      rw [optionVotesSum_cons, optionVotesSum_cons, ih t2 ht2]
    · simp only [optionUpdateIncrement, hu] at h
      obtain rfl := Option.some.inj h
      rw [optionVotesSum_cons, optionVotesSum_cons]
      have hx := updateFirstOption_votesSum_other p.options t optionId oid' a hne hu
      simp only at hx ⊢
      rw [hx]

theorem any_id_eq (l : List OptionRec) (q : String) :
    l.any (fun o => o.id == q) = decide (q ∈ l.map OptionRec.id) := by
  induction l with
  | nil => simp
  | cons o t ih =>
    simp only [List.any_cons, ih, List.map_cons, List.mem_cons]
    by_cases h : o.id = q
    · simp [h, eq_comm]
    · have h2 : ¬q = o.id := fun hh => h hh.symm
      simp [h, h2]

theorem optionUpdateIncrement_exists (db db' : DB) (optionId oid' : String) (a : Int)
    (h : optionUpdateIncrement db optionId a = some db') :
    optionExists db' oid' = optionExists db oid' := by
  induction db generalizing db' with
  | nil => simp [optionUpdateIncrement] at h
  | cons p ps ih =>
    rcases hu : updateFirstOption p.options optionId a with _ | t
    · simp only [optionUpdateIncrement, hu] at h
      obtain ⟨t2, ht2, rfl⟩ := Option.map_eq_some'.mp h
      rw [optionExists_cons, optionExists_cons, ih t2 ht2]
    · simp only [optionUpdateIncrement, hu] at h
      obtain rfl := Option.some.inj h
      rw [optionExists_cons, optionExists_cons]
      have hids := updateFirstOption_ids p.options t optionId a hu
      have hany : t.any (fun o => o.id == oid') = p.options.any (fun o => o.id == oid') := by
        rw [any_id_eq, any_id_eq, hids]
      simp only at hany ⊢
      rw [hany]

/-! ### Per-key reconciliation lemmas -/

theorem syncKey_cache_ne (s : St) (key k' : String) (h : k' ≠ key) :
    cacheGet (VoteService.syncKey s key).cache k' = cacheGet s.cache k' := by
  unfold VoteService.syncKey
  by_cases hv : (cacheGet s.cache key).getD 0 = 0
  · simp [hv]
  · rcases hr : optionUpdateIncrement s.db (stripVoteKey key) ((cacheGet s.cache key).getD 0)
      with _ | db2
    · simp [hv, hr]
    · simp [hv, hr, cacheGet_decrBy_ne _ _ _ _ h]

theorem syncKey_votesSum_ne (s : St) (key : String) (oid' : String)
    (h : oid' ≠ stripVoteKey key) :
    optionVotesSum (VoteService.syncKey s key).db oid' = optionVotesSum s.db oid' := by
  unfold VoteService.syncKey
  by_cases hv : (cacheGet s.cache key).getD 0 = 0
  · simp [hv]
  · rcases hr : optionUpdateIncrement s.db (stripVoteKey key) ((cacheGet s.cache key).getD 0)
      with _ | db2
    · simp [hv, hr]
    · simp [hv, hr, optionUpdateIncrement_votesSum_other _ _ _ _ _ h hr]

theorem syncKey_exists (s : St) (key : String) (oid' : String) :
    optionExists (VoteService.syncKey s key).db oid' = optionExists s.db oid' := by
  unfold VoteService.syncKey
  by_cases hv : (cacheGet s.cache key).getD 0 = 0
  · simp [hv]
  · rcases hr : optionUpdateIncrement s.db (stripVoteKey key) ((cacheGet s.cache key).getD 0)
      with _ | db2
    · simp [hv, hr]
    · simp [hv, hr, optionUpdateIncrement_exists _ _ _ _ _ hr]

theorem syncKey_skip (s : St) (key : String)
    (h : (cacheGet s.cache key).getD 0 = 0) :
    VoteService.syncKey s key = s := by
  unfold VoteService.syncKey
  simp [h]

theorem syncKey_fail (s : St) (key : String)
    (h : optionExists s.db (stripVoteKey key) = false) :
    VoteService.syncKey s key = s := by
  unfold VoteService.syncKey
  by_cases hv : (cacheGet s.cache key).getD 0 = 0
  · simp [hv]
  · have his := optionUpdateIncrement_isSome s.db (stripVoteKey key)
      ((cacheGet s.cache key).getD 0)
    rw [h] at his
    have : optionUpdateIncrement s.db (stripVoteKey key) ((cacheGet s.cache key).getD 0)
        = none := Option.not_isSome_iff_eq_none.mp (by simp [his])
    simp [hv, this]

theorem syncKey_success (s : St) (key : String) (v : Int)
    (hg : cacheGet s.cache key = some v) (hv : v ≠ 0)
    (he : optionExists s.db (stripVoteKey key) = true) :
    cacheGet (VoteService.syncKey s key).cache key = some 0 ∧
      optionVotesSum (VoteService.syncKey s key).db (stripVoteKey key) =
        optionVotesSum s.db (stripVoteKey key) + v := by
  have his : (optionUpdateIncrement s.db (stripVoteKey key) v).isSome = true := by
    rw [optionUpdateIncrement_isSome, he]
  obtain ⟨db2, hr⟩ := Option.isSome_iff_exists.mp his
  unfold VoteService.syncKey
  simp only [hg, Option.getD_some, hv, if_false, hr]
  constructor
  · rw [cacheGet_decrBy_self, hg, Option.getD_some, sub_self]
  · exact optionUpdateIncrement_votesSum_self s.db db2 (stripVoteKey key) v hr

theorem foldl_syncKey_cache_ne (L : List String) (s : St) (key : String)
    (h : ∀ k ∈ L, k ≠ key) :
    cacheGet (L.foldl VoteService.syncKey s).cache key = cacheGet s.cache key := by
  induction L generalizing s with
  | nil => rfl
  | cons k t ih =>
    rw [List.foldl_cons, ih _ (fun k2 hk2 => h k2 (List.mem_cons_of_mem _ hk2)),
      syncKey_cache_ne s k key (Ne.symm (h k (List.mem_cons_self _ _)))]

theorem foldl_syncKey_votesSum_ne (L : List String) (s : St) (oid' : String)
    (h : ∀ k ∈ L, stripVoteKey k ≠ oid') :
    optionVotesSum (L.foldl VoteService.syncKey s).db oid' = optionVotesSum s.db oid' := by
  induction L generalizing s with
  | nil => rfl
  | cons k t ih =>
    rw [List.foldl_cons, ih _ (fun k2 hk2 => h k2 (List.mem_cons_of_mem _ hk2)),
      syncKey_votesSum_ne s k oid' (Ne.symm (h k (List.mem_cons_self _ _)))]

theorem foldl_syncKey_exists (L : List String) (s : St) (oid' : String) :
    optionExists (L.foldl VoteService.syncKey s).db oid' = optionExists s.db oid' := by
  induction L generalizing s with
  | nil => rfl
  | cons k t ih =>
    rw [List.foldl_cons, ih, syncKey_exists]

/-! ### Concurrent-increment lemmas -/

theorem votesBurst_db (optionId : String) (d : Nat) (s : St) :
    (votesBurst optionId d s).db = s.db := by
  induction d generalizing s with
  | zero => rfl
  | succ n ih => rw [votesBurst, ih]; rfl

theorem votesBurst_pending (optionId : String) (d : Nat) (s : St) :
    (cacheGet (votesBurst optionId d s).cache (voteKey optionId)).getD 0 =
      (cacheGet s.cache (voteKey optionId)).getD 0 + d := by
  induction d generalizing s with
  | zero => simp [votesBurst]
  | succ n ih =>
    rw [votesBurst, ih]
    show (cacheGet (cacheIncr s.cache (voteKey optionId)) (voteKey optionId)).getD 0 + (n : Int)
      = (cacheGet s.cache (voteKey optionId)).getD 0 + ((n : Int) + 1)
    rw [cacheGet_incr_self, Option.getD_some]
    ring

/-! ### Read-path lemmas -/

theorem getPendingVotes_eq (optionId : String) (s : St) :
    VoteService.getPendingVotes optionId s =
      ((cacheGet s.cache (voteKey optionId)).getD 0, s) := by
  unfold VoteService.getPendingVotes
  cases h : cacheGet s.cache (voteKey optionId) <;> simp [h]

theorem mergeOptionsOp_eq (os : List OptionRec) (s : St) :
    VoteService.mergeOptionsOp os s =
      (os.map (fun o =>
        { o with votes := o.votes + (cacheGet s.cache (voteKey o.id)).getD 0 }), s) := by
  induction os with
  | nil => rfl
  | cons o rest ih =>
    simp only [VoteService.mergeOptionsOp, getPendingVotes_eq, ih, List.map_cons]

theorem mergePollsOp_eq (ps : List PollRec) (s : St) :
    VoteService.mergePollsOp ps s =
      (ps.map (fun p =>
        { p with options := p.options.map (fun o =>
          { o with votes := o.votes + (cacheGet s.cache (voteKey o.id)).getD 0 }) }), s) := by
  induction ps with
  | nil => rfl
  | cons p rest ih =>
    simp only [VoteService.mergePollsOp, mergeOptionsOp_eq, ih, List.map_cons]

theorem foldl_pending_sum (c : Cache) (L : List String) (acc : Int) :
    L.foldl (fun acc k =>
      match cacheGet c k with
      | some v => acc + v
      | none => acc) acc =
      acc + (L.map (fun k => (cacheGet c k).getD 0)).sum := by
  induction L generalizing acc with
  | nil => simp
  | cons k t ih =>
    rw [List.foldl_cons, ih]
    cases h : cacheGet c k <;> simp [h, add_assoc]

theorem scanFrom_eq_filter (l : List String) :
    scanFrom l = l.filter matchesVoteKeys := by
  induction l using scanFrom.induct with
  | case1 => simp [scanFrom]
  | case2 k ks ih =>
    rw [scanFrom, ih, ← List.filter_append, List.take_append_drop]

/-! ### Claims -/

/-- Claim C10: the `KEYS`-based and the cursor-`SCAN`-based reconciler
variants are observationally equivalent in the absence of concurrent
mutation: on the same state they discover the same list of vote keys, and
their reconciliation cycles produce the same final state (hence the same
durable counts and pending counters). -/
theorem scan_variant_equiv (s : St) :
    VoteService.scanAllKeys s.cache = cacheKeysMatching s.cache ∧
      VoteService.syncVotesToDatabaseScan s = VoteService.syncVotesToDatabase s := by
  have h : VoteService.scanAllKeys s.cache = cacheKeysMatching s.cache := by
    unfold VoteService.scanAllKeys cacheKeysMatching
    exact scanFrom_eq_filter _
  refine ⟨h, ?_⟩
  unfold VoteService.syncVotesToDatabaseScan VoteService.syncVotesToDatabase
  rw [h]

/-- Claim C5: running one reconciliation cycle when every enumerated
pending counter reads zero is a no-op — the whole state (durable counts
and pending counters alike) is unchanged. -/
theorem sync_zero_pending_noop (s : St)
    (h : ∀ k ∈ cacheKeysMatching s.cache, (cacheGet s.cache k).getD 0 = 0) :
    VoteService.syncVotesToDatabase s = s := by
  have main : ∀ L : List String, (∀ k ∈ L, (cacheGet s.cache k).getD 0 = 0) →
      L.foldl VoteService.syncKey s = s := by
    intro L
    induction L with
    | nil => intro _; rfl
    | cons k t ih =>
      intro hL
      rw [List.foldl_cons]
      have hk : VoteService.syncKey s k = s := by
        unfold VoteService.syncKey
        simp [hL k (List.mem_cons_self _ _)]
      rw [hk, ih (fun k2 h2 => hL k2 (List.mem_cons_of_mem _ h2))]
  unfold VoteService.syncVotesToDatabase
  by_cases he : (cacheKeysMatching s.cache).isEmpty <;> simp [he, main _ h]

theorem sync_zero_pending_noop_wit :
    (∀ k ∈ cacheKeysMatching exSt5.cache, (cacheGet exSt5.cache k).getD 0 = 0) ∧
      VoteService.syncVotesToDatabase exSt5 = exSt5 :=
  ⟨by decide, sync_zero_pending_noop exSt5 (by decide)⟩

/-- Claim C9: the read operations — single-poll read, all-polls read and
grand-total read — never mutate state: the state they return is exactly
the state they were given, so every pending counter and every durable
count is unchanged. -/
theorem reads_pure (s : St) (pollId : String) :
    (VoteService.getPollWithCachedVotes pollId s).2 = s ∧
      (VoteService.getAllPollsWithCachedVotes s).2 = s ∧
      (VoteService.getTotalVotes s).2 = s := by
  refine ⟨?_, ?_, rfl⟩
  · unfold VoteService.getPollWithCachedVotes
    cases h : findUniquePoll s.db pollId
    · rfl
    · simp [mergeOptionsOp_eq]
  · unfold VoteService.getAllPollsWithCachedVotes
    rw [mergePollsOp_eq]

/-- Claim C8: the all-polls read returns polls most-recent-first: whenever
`p` appears before `q` in the result, `p.createdAt ≥ q.createdAt`. -/
theorem all_polls_sorted_desc (s : St) :
    ((VoteService.getAllPollsWithCachedVotes s).1).Pairwise
      (fun p q => q.createdAt ≤ p.createdAt) := by
  unfold VoteService.getAllPollsWithCachedVotes
  rw [mergePollsOp_eq]
  apply List.pairwise_map.mpr
  exact List.sorted_insertionSort pollDescRel s.db

/-- Claim C7: the grand-total read returns the durable aggregate sum plus
the sum of all pending counter values; on the spec's two-option scenario
(durable {3, 7}, pending {2, 0}) the all-polls read merges to totals
{5, 7}, the stats breakdown reports 12 for the poll, and the grand totals
are 12. -/
theorem grand_total_correct :
    (∀ s : St, (VoteService.getTotalVotes s).1 =
        aggregateSumVotes s.db + specPendingSum s.cache) ∧
      ((VoteService.getAllPollsWithCachedVotes exSt).1.map
        (fun p => p.options.map OptionRec.votes) = [[5, 7]]) ∧
      (statsPollsHandler exSt).1 = ([("p1", 12)], 12) ∧
      (VoteService.getTotalVotes exSt).1 = 12 := by
  refine ⟨fun s => ?_, by decide, by decide, by decide⟩
  simp only [VoteService.getTotalVotes]
  rw [foldl_pending_sum]
  rfl

/-- Claim C3: for every poll present in the Durable Store, the single-poll
read and the all-polls read return, for each of its options, a visible
total equal to the spec's `visibleTotal` of the option's durable count and
its pending counter (absent counted as zero). -/
theorem read_path_visible_totals (s : St) (pollId : String) (poll : PollRec)
    (h : findUniquePoll s.db pollId = some poll) :
    (∃ p2, VoteService.getPollWithCachedVotes pollId s = (some p2, s) ∧
        p2.options.map OptionRec.votes = poll.options.map (fun o =>
          visibleTotal o.votes ((VoteService.getPendingVotes o.id s).1))) ∧
      (∀ p ∈ findManyPollsDesc s.db,
        ∃ p2 ∈ (VoteService.getAllPollsWithCachedVotes s).1,
          p2.id = p.id ∧ p2.options.map OptionRec.votes = p.options.map (fun o =>
            visibleTotal o.votes ((VoteService.getPendingVotes o.id s).1))) := by
  constructor
  · refine ⟨{ poll with options := poll.options.map (fun o =>
      { o with votes := o.votes + (cacheGet s.cache (voteKey o.id)).getD 0 }) }, ?_, ?_⟩
    · unfold VoteService.getPollWithCachedVotes
      rw [h]
      simp only [mergeOptionsOp_eq]
    · simp [visibleTotal, getPendingVotes_eq, List.map_map, Function.comp]
  · intro p hp
    refine ⟨{ p with options := p.options.map (fun o =>
      { o with votes := o.votes + (cacheGet s.cache (voteKey o.id)).getD 0 }) }, ?_, rfl, ?_⟩
    · unfold VoteService.getAllPollsWithCachedVotes
      rw [mergePollsOp_eq]
      exact List.mem_map_of_mem _ hp
    · simp [visibleTotal, getPendingVotes_eq, List.map_map, Function.comp]

theorem read_path_visible_totals_wit :
    findUniquePoll exDb "p1" = some exPoll ∧
      (∃ p2, VoteService.getPollWithCachedVotes "p1" exSt = (some p2, exSt) ∧
        p2.options.map OptionRec.votes = exPoll.options.map (fun o =>
          visibleTotal o.votes ((VoteService.getPendingVotes o.id exSt).1))) :=
  ⟨by decide, (read_path_visible_totals exSt "p1" exPoll (by decide)).1⟩

/-- Claim C2: one execution of the reconciler's per-key protocol for an
existing option (read the pending value `v`, increment durable by `v`,
decrement pending by `v`), with `d` concurrent vote increments landing in
the race window, changes the sum durable + pending by exactly the `d`
concurrently-recorded votes — reconciliation alone contributes a net zero
change (in particular, with `d = 0` the sum is unchanged). -/
theorem reconcile_conserves (s : St) (optionId : String) (d : Nat)
    (h : optionExists s.db optionId = true) :
    optionVotesSum (syncKeyConcurrent s (voteKey optionId) d).db optionId +
        (cacheGet (syncKeyConcurrent s (voteKey optionId) d).cache
          (voteKey optionId)).getD 0 =
      optionVotesSum s.db optionId +
        (cacheGet s.cache (voteKey optionId)).getD 0 + d := by
  unfold syncKeyConcurrent
  rw [stripVoteKey_voteKey]
  by_cases hv : (cacheGet s.cache (voteKey optionId)).getD 0 = 0
  · simp only [hv, if_true]
    rw [votesBurst_db, votesBurst_pending, hv]
    ring
  · have his : (optionUpdateIncrement s.db optionId
        ((cacheGet s.cache (voteKey optionId)).getD 0)).isSome = true := by
      rw [optionUpdateIncrement_isSome, h]
    obtain ⟨db2, hr⟩ := Option.isSome_iff_exists.mp his
    simp only [hv, if_false, hr]
    rw [votesBurst_db, cacheGet_decrBy_self, Option.getD_some, votesBurst_pending]
    show optionVotesSum db2 optionId + _ = _
    rw [optionUpdateIncrement_votesSum_self s.db db2 optionId _ hr]
    ring

theorem reconcile_conserves_wit :
    optionExists exSt2.db "a" = true ∧
      optionVotesSum (syncKeyConcurrent exSt2 (voteKey "a") 3).db "a" +
          (cacheGet (syncKeyConcurrent exSt2 (voteKey "a") 3).cache (voteKey "a")).getD 0 =
        optionVotesSum exSt2.db "a" + (cacheGet exSt2.cache (voteKey "a")).getD 0 + 3 :=
  ⟨by decide, reconcile_conserves exSt2 "a" 3 (by decide)⟩

/-- Claim C6: after deleting a poll, the pending counters of all its
options read as zero, and a subsequent reconciliation cycle no longer
enumerates their keys. -/
theorem delete_poll_clears_pending (s : St) (pollId : String) (poll : PollRec)
    (h : findUniquePoll s.db pollId = some poll) :
    (deletePollHandler pollId s).1 = true ∧
      ∀ oid ∈ poll.options.map OptionRec.id,
        (VoteService.getPendingVotes oid (deletePollHandler pollId s).2).1 = 0 ∧
          voteKey oid ∉ cacheKeysMatching (deletePollHandler pollId s).2.cache := by
  unfold deletePollHandler
  rw [h]
  refine ⟨rfl, ?_⟩
  intro oid hoid
  unfold VoteService.clearPollVotes
  by_cases hemp : (poll.options.map OptionRec.id).isEmpty
  · rw [List.isEmpty_iff] at hemp
    rw [hemp] at hoid
    simp at hoid
  · have hkmem : voteKey oid ∈ (poll.options.map OptionRec.id).map voteKey :=
      List.mem_map_of_mem _ hoid
    have hb : (poll.options.map OptionRec.id).isEmpty = false := by
      simpa using hemp
    simp only [hb, Bool.false_eq_true, if_false]
    constructor
    · rw [getPendingVotes_eq]
      show (cacheGet (cacheDel s.cache _) (voteKey oid)).getD 0 = 0
      rw [cacheGet_del_mem _ _ _ hkmem]
      rfl
    · exact mem_keysMatching_del _ _ _ hkmem

theorem delete_poll_clears_pending_wit :
    findUniquePoll exDb "p1" = some exPoll ∧ (deletePollHandler "p1" exSt).1 = true :=
  ⟨by decide, (delete_poll_clears_pending exSt "p1" exPoll (by decide)).1⟩

/-- Claim C1 (refuting evaluation): voting for an option absent from the
Durable Store answers 404, but the compensating decrement lands on the
key built with the handler's own `votes:` constant rather than the
service's `poll:votes:` key that `recordVote` incremented — the option's
pending counter ends one above its pre-call value (here 1, not 0), and a
stray counter at `votes:missing` is created at -1. -/
theorem postVotes_notFound_wrong_key :
    postVotesHandler "missing" (⟨[], []⟩ : St) =
        (VoteResult.notFound, ⟨[], [("poll:votes:missing", 1), ("votes:missing", -1)]⟩) ∧
      (VoteService.getPendingVotes "missing" (postVotesHandler "missing" ⟨[], []⟩).2).1 = 1 := by
  decide

theorem nodup_split {α : Type} (L : List α) (a : α) (hnd : L.Nodup) (h : a ∈ L) :
    ∃ L1 L2, L = L1 ++ a :: L2 ∧ a ∉ L1 ∧ a ∉ L2 := by
  obtain ⟨L1, L2, rfl⟩ := List.append_of_mem h
  rw [List.nodup_append] at hnd
  obtain ⟨h1, h2, hdisj⟩ := hnd
  refine ⟨L1, L2, rfl, ?_, (List.nodup_cons.mp h2).1⟩
  intro hmem
  exact hdisj hmem (List.mem_cons_self _ _)

/-- Claim C4: when the Durable Store increment fails for one enumerated key
(its option no longer exists, so the update throws), that key's pending
counter is unchanged at the end of the reconciliation cycle — no
compensating mutation — and every other enumerated key whose option does
exist is still synced: its pending counter ends at zero and its durable
count is incremented by exactly the pending value that was read. -/
theorem sync_isolates_failures (s : St) (key : String)
    (hnd : (s.cache.map Prod.fst).Nodup)
    (hmem : key ∈ cacheKeysMatching s.cache)
    (hfail : optionExists s.db (stripVoteKey key) = false) :
    cacheGet (VoteService.syncVotesToDatabase s).cache key = cacheGet s.cache key ∧
      ∀ k2 ∈ cacheKeysMatching s.cache, k2 ≠ key →
        optionExists s.db (stripVoteKey k2) = true →
        cacheGet (VoteService.syncVotesToDatabase s).cache k2 = some 0 ∧
          optionVotesSum (VoteService.syncVotesToDatabase s).db (stripVoteKey k2) =
            optionVotesSum s.db (stripVoteKey k2) + (cacheGet s.cache k2).getD 0 := by
  have hLnd : (cacheKeysMatching s.cache).Nodup := keysMatching_nodup _ hnd
  have hrun : VoteService.syncVotesToDatabase s =
      (cacheKeysMatching s.cache).foldl VoteService.syncKey s := by
    unfold VoteService.syncVotesToDatabase
    have hne : cacheKeysMatching s.cache ≠ [] := List.ne_nil_of_mem hmem
    simp [List.isEmpty_iff, hne]
  rw [hrun]
  constructor
  · obtain ⟨L1, L2, hsplit, hn1, hn2⟩ := nodup_split _ key hLnd hmem
    rw [hsplit, List.foldl_append, List.foldl_cons]
    have hmid1 : cacheGet (L1.foldl VoteService.syncKey s).cache key =
        cacheGet s.cache key :=
      foldl_syncKey_cache_ne L1 s key (fun k hk heq => hn1 (heq ▸ hk))
    have hmidex : optionExists (L1.foldl VoteService.syncKey s).db
        (stripVoteKey key) = false := by
      rw [foldl_syncKey_exists, hfail]
    rw [syncKey_fail _ _ hmidex,
      foldl_syncKey_cache_ne L2 _ key (fun k hk heq => hn2 (heq ▸ hk)), hmid1]
  · intro k2 hk2 hne2 hsucc
    obtain ⟨M1, M2, hsplit, hn1, hn2⟩ := nodup_split _ k2 hLnd hk2
    have hm1L : ∀ k ∈ M1, k ∈ cacheKeysMatching s.cache := by
      intro k hk
      rw [hsplit]
      exact List.mem_append_left _ hk
    have hm2L : ∀ k ∈ M2, k ∈ cacheKeysMatching s.cache := by
      intro k hk
      rw [hsplit]
      exact List.mem_append_right _ (List.mem_cons_of_mem _ hk)
    have hstrip1 : ∀ k ∈ M1, stripVoteKey k ≠ stripVoteKey k2 := by
      intro k hk heq
      exact hn1 ((stripVoteKey_inj k k2 (mem_keysMatching_matches _ _ (hm1L k hk))
        (mem_keysMatching_matches _ _ hk2) heq) ▸ hk)
    have hstrip2 : ∀ k ∈ M2, stripVoteKey k ≠ stripVoteKey k2 := by
      intro k hk heq
      exact hn2 ((stripVoteKey_inj k k2 (mem_keysMatching_matches _ _ (hm2L k hk))
        (mem_keysMatching_matches _ _ hk2) heq) ▸ hk)
    rw [hsplit, List.foldl_append, List.foldl_cons]
    have hc : cacheGet (M1.foldl VoteService.syncKey s).cache k2 =
        cacheGet s.cache k2 :=
      foldl_syncKey_cache_ne M1 s k2 (fun k hk heq => hn1 (heq ▸ hk))
    have hex : optionExists (M1.foldl VoteService.syncKey s).db
        (stripVoteKey k2) = true := by
      rw [foldl_syncKey_exists, hsucc]
    have hsum0 : optionVotesSum (M1.foldl VoteService.syncKey s).db (stripVoteKey k2) =
        optionVotesSum s.db (stripVoteKey k2) :=
      foldl_syncKey_votesSum_ne M1 s _ hstrip1
    obtain ⟨v, hv⟩ := cacheGet_isSome_of_mem s.cache k2 (mem_keysMatching_mem_keys _ _ hk2)
    by_cases hv0 : v = 0
    · have hstep : VoteService.syncKey (M1.foldl VoteService.syncKey s) k2 =
          M1.foldl VoteService.syncKey s :=
        syncKey_skip _ k2 (by rw [hc, hv, hv0]; rfl)
      rw [hstep]
      constructor
      · rw [foldl_syncKey_cache_ne M2 _ k2 (fun k hk heq => hn2 (heq ▸ hk)), hc, hv, hv0]
      · rw [foldl_syncKey_votesSum_ne M2 _ _ hstrip2, hsum0, hv, hv0]
        simp
    · have hsucc2 := syncKey_success (M1.foldl VoteService.syncKey s) k2 v
        (by rw [hc, hv]) hv0 hex
      constructor
      · rw [foldl_syncKey_cache_ne M2 _ k2 (fun k hk heq => hn2 (heq ▸ hk)), hsucc2.1]
      · rw [foldl_syncKey_votesSum_ne M2 _ _ hstrip2, hsucc2.2, hsum0, hv]
        simp

theorem sync_isolates_failures_wit :
    ((exSt4.cache.map Prod.fst).Nodup ∧
        voteKey "a" ∈ cacheKeysMatching exSt4.cache ∧
        optionExists exSt4.db (stripVoteKey (voteKey "a")) = false) ∧
      cacheGet (VoteService.syncVotesToDatabase exSt4).cache (voteKey "a") =
        cacheGet exSt4.cache (voteKey "a") :=
  ⟨⟨by decide, by decide, by decide⟩,
    (sync_isolates_failures exSt4 (voteKey "a") (by decide) (by decide) (by decide)).1⟩
